import Mathlib

/-!
Verification development for the StoryGet story-scraper engine
(`enhanced-scraper-v2.js` / `enhanced-scraper-v3.js`).

The JavaScript string and list operations used by the extraction engine are
embedded as executable Lean functions over `List Char` / `String`:
JS `String.prototype.split(/\s+/)`, `trim`, `toLowerCase`, `includes`,
the concrete regex replacements of `cleanTitle`, the content scorer, the
link filter with `Map`-based deduplication, and the v2 batch-crawl loop
with its SQLite-like keyed storage.  JS numbers are modelled as `Nat`/`Int`
(all arithmetic stays far below 2^53, so no overflow modelling is needed);
the float division in the average-line-length check is modelled as exact
rational division.  `new URL(x).hostname` is an external collaborator and
is modelled as an abstract function parameter `host`.
-/

/-- Character class of the JS regex `\s` (and of `String.prototype.trim`):
space, tab, line terminators, and the Unicode space separators. -/
def isWsJS (c : Char) : Bool :=
  c == ' ' || c == '\t' || c == '\n' || c == '\r' || c == '\x0b' || c == '\x0c' ||
  c == '\u00a0' || c == '\u1680' ||
  c == '\u2000' || c == '\u2001' || c == '\u2002' || c == '\u2003' || c == '\u2004' || c == '\u2005' ||
  c == '\u2006' || c == '\u2007' || c == '\u2008' || c == '\u2009' || c == '\u200a' ||
  c == '\u2028' || c == '\u2029' || c == '\u202f' || c == '\u205f' ||
  c == '\u3000' || c == '\ufeff'

/-- Character class of the JS line terminators: `.` in a JS regex without the
`s` flag matches exactly the characters outside this class. -/
def isNLJS (c : Char) : Bool :=
  c == '\n' || c == '\r' || c == '\u2028' || c == '\u2029'

/-- Characters matched by `.` in a JS regex without the `s` flag. -/
def isDotJS (c : Char) : Bool := !(isNLJS c)

/-- True when the list is nonempty and its first character is not JS
whitespace. -/
def headOkB (l : List Char) : Bool :=
  match l with
  | [] => false
  | c :: _ => !(isWsJS c)

/-- True when the list is empty or its final character is not JS whitespace. -/
def lastOkB (l : List Char) : Bool :=
  match l.getLast? with
  | none => true
  | some c => !(isWsJS c)

/-- Piece list produced by JS `str.split(/\s+/)`.  The second argument is the
splitter state: `some acc` means a piece is being accumulated (reversed) in
`acc`; `none` means the scan is inside a (maximal) whitespace separator run.
Each maximal whitespace run is one separator, an empty piece appears at the
start (resp. end) when the string begins (resp. ends) with whitespace, and
the empty string yields the single piece `""`. -/
def splitWsGo : List Char → Option (List Char) → List (List Char)
  | [], some acc => [acc.reverse]
  | [], none => [[]]
  | c :: r, some acc =>
    if isWsJS c then acc.reverse :: splitWsGo r none
    else splitWsGo r (some (c :: acc))
  | c :: r, none =>
    if isWsJS c then splitWsGo r none
    else splitWsGo r (some [c])

/-- JS `content.split(/\s+/)` as used by `scrape` (enhanced-scraper-v2.js
line 141). -/
def jsSplitWs (s : String) : List (List Char) := splitWsGo s.data (some [])

/-- The `wordCount` field computed by `scrape`:
`content.split(/\s+/).length` (enhanced-scraper-v2.js line 141). -/
def jsWordCount (s : String) : Nat := (jsSplitWs s).length

/-- Number of maximal non-whitespace runs remaining; the flag records
whether the scan is currently inside such a run. -/
def tokenCountGo : List Char → Bool → Nat
  | [], _ => 0
  | c :: r, inTok =>
    if isWsJS c then tokenCountGo r false
    else (if inTok then 0 else 1) + tokenCountGo r true

/-- Number of whitespace-delimited tokens (maximal non-whitespace runs):
the spec's notion of word count. -/
def tokenCount (l : List Char) : Nat := tokenCountGo l false

/-- Number of maximal whitespace runs remaining; the flag records whether
the scan is currently inside such a run. -/
def wsRunsGo : List Char → Bool → Nat
  | [], _ => 0
  | c :: r, inWs =>
    if isWsJS c then (if inWs then 0 else 1) + wsRunsGo r true
    else wsRunsGo r false

/-- The record assembled by `scrape` (enhanced-scraper-v2.js lines 136-141,
160): title, content and author as extracted, `domain` from the URL, and
`wordCount = content.split(/\s+/).length`. -/
structure Story where
  title : String
  content : String
  author : Option String
  domain : String
  wordCount : Nat
deriving DecidableEq, Repr

/-- Build the extraction result exactly as `scrape` does, computing the
`wordCount` field from the content string. -/
def mkStory (title content : String) (author : Option String) (domain : String) : Story :=
  { title := title, content := content, author := author, domain := domain,
    wordCount := jsWordCount content }

/-- JS `toLowerCase` on a character list (ASCII case mapping, which covers
every character the engine's keyword lists compare against). -/
def lowerL (l : List Char) : List Char := l.map Char.toLower

/-- JS `toLowerCase` on a string. -/
def lowerS (s : String) : String := ⟨lowerL s.data⟩

/-- Whether the first list is a leading segment of the second. -/
def leadsWith : List Char → List Char → Bool
  | [], _ => true
  | _ :: _, [] => false
  | a :: as1, b :: bs1 => a == b && leadsWith as1 bs1

/-- JS `hay.includes(needle)`: substring containment. -/
def isSubstr (n : List Char) : List Char → Bool
  | [] => n.isEmpty
  | c :: t => leadsWith n (c :: t) || isSubstr n t

/-- JS `hay.includes(needle)` on strings. -/
def isSubstrS (n h : String) : Bool := isSubstr n.data h.data

/-- Remove the maximal trailing run of JS whitespace. -/
def dropTrailingWs : List Char → List Char
  | [] => []
  | c :: r =>
    match dropTrailingWs r, isWsJS c with
    | [], true => []
    | t, _ => c :: t

/-- JS `String.prototype.trim`. -/
def jsTrimL (l : List Char) : List Char := dropTrailingWs (l.dropWhile isWsJS)

/-- JS `String.prototype.trim` on strings. -/
def jsTrimS (s : String) : String := ⟨jsTrimL s.data⟩

/-- Whether a tail can complete a match of `\s*.+$` in a JS regex: an
optional whitespace run followed by a nonempty newline-free run reaching the
end of the string (`.` does not match line terminators). -/
def matchableTail : List Char → Bool
  | [] => false
  | c :: r => (isDotJS c && r.all isDotJS) || (isWsJS c && matchableTail r)

/-- The separator class `[-|–—]` of the first `cleanTitle` replacement. -/
def isDashJS (c : Char) : Bool :=
  c == '-' || c == '|' || c == '–' || c == '—'

/-- The separator class `\|` of the second `cleanTitle` replacement. -/
def isPipeJS (c : Char) : Bool := c == '|'

/-- Index of the leftmost separator character (class `p`) that begins a
match of `\s*[sep]\s*.+$`, i.e. is followed by a matchable tail. -/
def findTruncIdx (p : Char → Bool) : List Char → Option Nat
  | [] => none
  | c :: r =>
    if p c && matchableTail r then some 0
    else (findTruncIdx p r).map (· + 1)

/-- JS `title.replace(/\s*[sep]\s*.+$/, '')` for a separator class `p`
(cleanTitle, enhanced-scraper-v2.js lines 1037-1038): cut the string at the
leftmost eligible separator, together with the whitespace run immediately
before it. -/
def truncRule (p : Char → Bool) (l : List Char) : List Char :=
  match findTruncIdx p l with
  | none => l
  | some k => dropTrailingWs (l.take k)

/-- Alternatives of the role-marker pattern `/^(story|chapter|part)\s*:?\s*/i`. -/
def roleWords : List (List Char) := [("story").data, ("chapter").data, ("part").data]

/-- First role word (in alternation order) that case-insensitively leads the
string; returns the remainder after it. -/
def stripFirstRole : List (List Char) → List Char → Option (List Char)
  | [], _ => none
  | w :: rest, l =>
    if leadsWith w (lowerL l) then some (l.drop w.length) else stripFirstRole rest l

/-- JS `title.replace(/^(story|chapter|part)\s*:?\s*/i, '')`
(cleanTitle, enhanced-scraper-v2.js line 1042). -/
def roleRule (l : List Char) : List Char :=
  match stripFirstRole roleWords l with
  | none => l
  | some rest =>
    let r1 := rest.dropWhile isWsJS
    let r2 := if r1.head? == some ':' then r1.tail else r1
    r2.dropWhile isWsJS

/-- Alternatives of the trailing-qualifier pattern
`/\s*-\s*(read online|free|story)$/i`. -/
def qualWords : List (List Char) := [("read online").data, ("free").data, ("story").data]

/-- Case-insensitive suffix test. -/
def suffixCI (w l : List Char) : Bool :=
  decide (w.length ≤ l.length) && ((lowerL l).drop (l.length - w.length) == w)

/-- First qualifier word that case-insensitively ends the string; returns
the part of the string before it. -/
def stripAnySuffixCI : List (List Char) → List Char → Option (List Char)
  | [], _ => none
  | w :: rest, l =>
    if suffixCI w l then some (l.take (l.length - w.length)) else stripAnySuffixCI rest l

/-- JS `title.replace(/\s*-\s*(read online|free|story)$/i, '')`
(cleanTitle, enhanced-scraper-v2.js line 1043): the string must end with a
qualifier word preceded, modulo whitespace, by a literal dash. -/
def qualRule (l : List Char) : List Char :=
  match stripAnySuffixCI qualWords l with
  | none => l
  | some r1 =>
    let r2 := dropTrailingWs r1
    if r2.getLast? == some '-' then dropTrailingWs r2.dropLast else l

/-- Index of the leftmost `(` whose remainder (within the part before the
final `)`) is newline-free, i.e. the start of a `\s*\(.*\)$` match. -/
def findOpenIdx : List Char → Option Nat
  | [] => none
  | c :: r =>
    if c == '(' && r.all isDotJS then some 0
    else (findOpenIdx r).map (· + 1)

/-- JS `title.replace(/\s*\(.*\)$/, '')`
(cleanTitle, enhanced-scraper-v2.js line 1044): when the string ends with
`)`, cut it at the leftmost `(` whose span to the final `)` is
newline-free, together with the whitespace run immediately before it. -/
def parenRule (l : List Char) : List Char :=
  if l.getLast? == some ')' then
    match findOpenIdx l.dropLast with
    | some k => dropTrailingWs (l.take k)
    | none => l
  else l

/-- The `cleanTitle` method (enhanced-scraper-v2.js lines 1033-1052 and
identically enhanced-scraper-v3.js lines 719-738): dash/pipe truncation,
role-marker strip, trailing-qualifier strip, trailing-parenthetical strip,
then trim. -/
def cleanTitleL (l : List Char) : List Char :=
  jsTrimL (parenRule (qualRule (roleRule (truncRule isPipeJS (truncRule isDashJS l)))))

/-- The `cleanTitle` method on strings. -/
def cleanTitle (s : String) : String := ⟨cleanTitleL s.data⟩

/-- JS `text.split('\n')`: split at every newline character, keeping empty
pieces. -/
def splitLines : List Char → List (List Char)
  | [] => [[]]
  | c :: r =>
    match splitLines r with
    | [] => [[c]]
    | h :: t => if c == '\n' then [] :: h :: t else (c :: h) :: t

/-- JS `text.split('\n').filter(line => line.trim().length > 0).length`
(scoreContentElement, enhanced-scraper-v2.js line 510). -/
def nonEmptyLineCount (text : List Char) : Nat :=
  ((splitLines text).filter (fun ln => ln.any (fun c => !(isWsJS c)))).length

/-- Story keywords of `scoreContentElement` (enhanced-scraper-v2.js
line 494). -/
def scorerStoryKws : List String :=
  [("story"), ("chapter"), ("content"), ("text"), ("body"), ("post")]

/-- Navigation keywords of `scoreContentElement` (enhanced-scraper-v2.js
line 502). -/
def scorerNavKws : List String :=
  [("nav"), ("menu"), ("sidebar"), ("footer"), ("header")]

/-- The `scoreContentElement` method (enhanced-scraper-v2.js lines 485-517):
start from the text length, add 50 per child paragraph, walk the story
keyword list adding 100 for each keyword contained in the class attribute,
walk the navigation keyword list subtracting 200 likewise, and subtract 100
when the average non-empty-line length (0 when there are no such lines) is
below 30.  The JS float division is modelled as exact rational division. -/
def scoreContentElement (className : String) (paraCount : Nat) (text : String) : Int :=
  let base :=
    scorerNavKws.foldl (fun sc kw => if isSubstrS kw className then sc - 200 else sc)
      (scorerStoryKws.foldl (fun sc kw => if isSubstrS kw className then sc + 100 else sc)
        ((text.length : Int) + 50 * (paraCount : Int)))
  let lns := nonEmptyLineCount text.data
  let avgLineLength : ℚ := if 0 < lns then (text.length : ℚ) / (lns : ℚ) else 0
  if avgLineLength < 30 then base - 100 else base

/-- The scoring formula as the spec states it: `textLength +
50 * paragraphChildCount`, plus 100 per story keyword occurring in the
class attribute, minus 200 per navigation keyword occurring likewise, minus
100 when `textLength / nonEmptyLineCount < 30` (division of rationals;
division by zero is zero). -/
def specContentScore (className : String) (paraCount : Nat) (text : String) : Int :=
  (text.length : Int) + 50 * (paraCount : Int)
    + 100 * ((scorerStoryKws.filter (fun kw => isSubstrS kw className)).length : Int)
    - 200 * ((scorerNavKws.filter (fun kw => isSubstrS kw className)).length : Int)
    - (if (text.length : ℚ) / (nonEmptyLineCount text.data : ℚ) < 30 then 100 else 0)

/-- Abstract rendered page: the external DocumentTree collaborator, recorded
as the text that each CSS selector's first match would yield (`absent`
selectors yield nothing; cheerio returns the empty string for an empty
match set, which the engine treats identically to an absent element). -/
abbrev Doc := List (String × String)

/-- Text of the first element matching a selector. -/
def queryText (d : Doc) (sel : String) : Option String :=
  (d.find? (fun p => p.1 == sel)).map (fun p => p.2)

/-- The primary title selectors of `extractTitle` (enhanced-scraper-v2.js
lines 369-374), in priority order. -/
def primaryTitleSels : List String :=
  [("h1.story-title"), ("h1.post-title"), ("h1.chapter-title"),
   (".story-title"), (".post-title"), (".chapter-title"), (".entry-title"),
   ("h1.title"), (".title h1"), ("#title h1"),
   ("article h1"), ("main h1"), (".content h1")]

/-- The acceptance bound of `extractTitle`: a trimmed candidate is accepted
when it is truthy and its length lies strictly between 3 and 200. -/
def acceptCondB (t : String) : Bool :=
  (!(t == (""))) && decide (3 < t.length) && decide (t.length < 200)

/-- One selector-loop of `extractTitle`: the first selector whose trimmed
text passes the acceptance bound wins and is returned cleaned. -/
def firstAccept : List String → Doc → Option String
  | [], _ => none
  | sel :: rest, d =>
    match queryText d sel with
    | none => firstAccept rest d
    | some raw =>
      if acceptCondB (jsTrimS raw) then some (cleanTitle (jsTrimS raw))
      else firstAccept rest d

/-- The `<title>` fallback of `extractTitle` (enhanced-scraper-v2.js lines
402-408): the page title must be truthy and longer than 3, and its cleaned
form is re-checked against the (3, 200) bound. -/
def titleBranchVal (d : Doc) : Option String :=
  let pt := jsTrimS ((queryText d ("title")).getD (""))
  if (!(pt == (""))) && decide (3 < pt.length) then
    let ct := cleanTitle pt
    if decide (3 < ct.length) && decide (ct.length < 200) then some ct else none
  else none

/-- The `extractTitle` method of the v2 engine (enhanced-scraper-v2.js
lines 367-411): primary selectors, then `h1`, then `h2`/`h3`, then the page
title, then the sentinel. -/
def extractTitleV2 (d : Doc) : String :=
  match firstAccept primaryTitleSels d with
  | some t => t
  | none =>
    match firstAccept [("h1")] d with
    | some t => t
    | none =>
      match firstAccept [("h2"), ("h3")] d with
      | some t => t
      | none =>
        match titleBranchVal d with
        | some t => t
        | none => ("Untitled Story")

/-- Whether any stage of the title fallback chain produces a value. -/
def hasAcceptableTitle (d : Doc) : Bool :=
  (firstAccept primaryTitleSels d).isSome || (firstAccept [("h1")] d).isSome ||
    (firstAccept [("h2"), ("h3")] d).isSome || (titleBranchVal d).isSome

/-- A raw link as collected by `scrapeLinksFromPage` before filtering
(enhanced-scraper-v2.js lines 184-202): resolved absolute URL, link text,
and the parent element's text. -/
structure RawLink where
  url : String
  text : String
  parentText : String
deriving DecidableEq, Repr

/-- The options object of `scrapeLinksFromPage` (enhanced-scraper-v2.js
lines 166-174), restricted to the fields the filter chain reads. -/
structure LinkCfg where
  filterPatterns : List String
  excludePatterns : List String
  sameDomainOnly : Bool
  maxLinks : Nat
  storyKeywords : List String

/-- Navigation texts excluded by the filter (enhanced-scraper-v2.js
line 221). -/
def navTexts : List String :=
  [("home"), ("about"), ("contact"), ("login"), ("register"), ("search"),
   ("menu"), ("navigation"), ("footer"), ("header"), ("sidebar")]

/-- Generic link texts excluded by the filter (enhanced-scraper-v2.js
line 227). -/
def genericTexts : List String :=
  [("more"), ("click"), ("here"), ("link"), ("page")]

/-- `(link.text + ' ' + link.parentText).toLowerCase()` (enhanced-scraper-v2.js
line 207). -/
def combinedText (link : RawLink) : String :=
  lowerS (link.text ++ (" ") ++ link.parentText)

/-- Same-domain rejection (enhanced-scraper-v2.js lines 210-213); the URL
parser `new URL(x).hostname` is the abstract collaborator `host`. -/
def domainReject (host : String → String) (cfg : LinkCfg) (pageUrl : String)
    (link : RawLink) : Bool :=
  cfg.sameDomainOnly && !(host link.url == host pageUrl)

/-- Exclusion-pattern rejection (enhanced-scraper-v2.js lines 215-218). -/
def exclReject (cfg : LinkCfg) (link : RawLink) : Bool :=
  cfg.excludePatterns.any (fun p => isSubstrS (lowerS p) (lowerS link.url))

/-- Navigation-text rejection (enhanced-scraper-v2.js lines 220-224). -/
def navReject (link : RawLink) : Bool :=
  navTexts.any (fun ex =>
    isSubstrS ex (combinedText link) && decide ((combinedText link).length < 50))

/-- Short/generic-text rejection (enhanced-scraper-v2.js lines 226-229). -/
def shortReject (link : RawLink) : Bool :=
  decide (link.text.length < 3) || genericTexts.contains (lowerS link.text)

/-- Inclusion-pattern test (enhanced-scraper-v2.js lines 231-237). -/
def patternHit (cfg : LinkCfg) (link : RawLink) : Bool :=
  cfg.filterPatterns.any (fun p =>
    isSubstrS (lowerS p) (lowerS link.url) || isSubstrS (lowerS p) (combinedText link))

/-- Story-keyword heuristic (enhanced-scraper-v2.js lines 239-242). -/
def storyHit (cfg : LinkCfg) (link : RawLink) : Bool :=
  cfg.storyKeywords.any (fun k =>
    isSubstrS k (lowerS link.url) || isSubstrS k (combinedText link))

/-- Plausible-title-length heuristic (enhanced-scraper-v2.js line 245). -/
def meaningfulText (link : RawLink) : Bool :=
  decide (10 < link.text.length) && decide (link.text.length < 200)

/-- Chapter/part/episode/numeral heuristic, the regex
`/chapter|part|episode|\d+/` (enhanced-scraper-v2.js line 248). -/
def chapterHit (link : RawLink) : Bool :=
  isSubstrS ("chapter") (combinedText link) || isSubstrS ("part") (combinedText link) ||
    isSubstrS ("episode") (combinedText link) ||
    (combinedText link).data.any Char.isDigit

/-- The `scrapeLinksFromPage` filter predicate (enhanced-scraper-v2.js
lines 205-251), with the rejection chain, the pattern allowlist
short-circuit, and the heuristic acceptance in source order. -/
def linkAllowed (host : String → String) (cfg : LinkCfg) (pageUrl : String)
    (link : RawLink) : Bool :=
  if domainReject host cfg pageUrl link then false
  else if exclReject cfg link then false
  else if navReject link then false
  else if shortReject link then false
  else if !cfg.filterPatterns.isEmpty then patternHit cfg link
  else storyHit cfg link || meaningfulText link || chapterHit link

/-- One `Map.set` step of the JS `new Map(links.map(l => [l.url, l]))`
deduplication (enhanced-scraper-v2.js line 254): an existing key keeps its
position but its value is overwritten; a new key is appended. -/
def mapInsert (acc : List RawLink) (x : RawLink) : List RawLink :=
  if acc.any (fun y => y.url == x.url) then
    acc.map (fun y => if y.url == x.url then x else y)
  else acc ++ [x]

/-- The JS `Map`-based URL deduplication of `scrapeLinksFromPage`. -/
def dedupByUrl (l : List RawLink) : List RawLink := l.foldl mapInsert []

/-- The link list returned by `scrapeLinksFromPage` (enhanced-scraper-v2.js
lines 205-255): filter, dedupe by URL, truncate to `maxLinks`. -/
def discoverLinks (host : String → String) (cfg : LinkCfg) (pageUrl : String)
    (raw : List RawLink) : List RawLink :=
  (dedupByUrl (raw.filter (linkAllowed host cfg pageUrl))).take cfg.maxLinks

/-- First-occurrence subsequence of a list of URLs: the spec's notion of
first-occurrence order. -/
def firstOccs : List String → List String
  | [] => []
  | u :: r => u :: firstOccs (r.filter (fun v => !(v == u)))
termination_by l => l.length
decreasing_by
  exact Nat.lt_succ_of_le (List.length_filter_le _ r)

/-- The `stories` table keyed by its UNIQUE `url` column, as the external
SQLite collaborator: an association list from URL to record. -/
abbrev Storage := List (String × Story)

/-- `SELECT * FROM stories WHERE url = ?` (`getStoryByUrl`,
enhanced-scraper-v2.js lines 349-356). -/
def lookupStory (st : Storage) (u : String) : Option Story :=
  (st.find? (fun r => r.1 == u)).map (fun r => r.2)

/-- `INSERT OR REPLACE INTO stories ...` keyed on the UNIQUE `url` column
(`scrape`, enhanced-scraper-v2.js line 148): any conflicting row is
removed and the new row appended. -/
def insertOrReplace (st : Storage) (u : String) (s : Story) : Storage :=
  (st.filter (fun r => !(r.1 == u))) ++ [(u, s)]

/-- `DELETE FROM stories WHERE url = ?` (`deleteStoryByUrl`,
enhanced-scraper-v2.js lines 358-365). -/
def deleteByUrl (st : Storage) (u : String) : Storage :=
  st.filter (fun r => !(r.1 == u))

/-- The v2 `scrape` method (enhanced-scraper-v2.js lines 127-161), with the
external fetch-and-extract step abstracted as `env` (`none` models a
fetch/extraction error thrown before the insert): on success the record is
persisted unconditionally via `INSERT OR REPLACE` and returned. -/
def scrapeV2 (env : String → Option Story) (st : Storage) (u : String) :
    Option (Story × Storage) :=
  (env u).map (fun s => (s, insertOrReplace st u s))

/-- Per-link outcome of the v2 batch loop (`scrapeLinksFromPage`,
enhanced-scraper-v2.js lines 287-326). -/
inductive Outcome where
  | success (url : String) (story : Story)
  | skippedDup (url : String)
  | skippedShort (url : String)
deriving DecidableEq, Repr

/-- State threaded through the batch loop: the storage plus the `results`
and `errors` accumulators of `scrapeLinksFromPage`. -/
structure BatchState where
  storage : Storage
  results : List Outcome
  errors : List String
deriving DecidableEq, Repr

/-- One iteration of the v2 batch loop (enhanced-scraper-v2.js lines
287-326): skip when the URL is already stored; otherwise scrape (which
inserts); when the content is shorter than `minContentLength`, delete the
just-inserted record and record a skip; otherwise record a success.  An
extraction error leaves storage unchanged and records the error. -/
def processLink (env : String → Option Story) (minLen : Nat) (bs : BatchState)
    (link : RawLink) : BatchState :=
  match lookupStory bs.storage link.url with
  | some _ => { bs with results := bs.results ++ [Outcome.skippedDup link.url] }
  | none =>
    match scrapeV2 env bs.storage link.url with
    | none => { bs with errors := bs.errors ++ [link.url] }
    | some (story, st1) =>
      if story.content.length < minLen then
        { bs with storage := deleteByUrl st1 link.url,
                  results := bs.results ++ [Outcome.skippedShort link.url] }
      else
        { bs with storage := st1,
                  results := bs.results ++ [Outcome.success link.url story] }

/-- The whole v2 batch loop over the filtered link list. -/
def runBatch (env : String → Option Story) (minLen : Nat) (st : Storage)
    (links : List RawLink) : BatchState :=
  links.foldl (processLink env minLen) ⟨st, [], []⟩

def isSuccessO : Outcome → Bool
  | Outcome.success _ _ => true
  | _ => false

def isSkippedO : Outcome → Bool
  | Outcome.skippedDup _ => true
  | Outcome.skippedShort _ => true
  | _ => false

/-- The `summary` object of `scrapeLinksFromPage` (enhanced-scraper-v2.js
lines 328-332): successful, skipped, failed. -/
def summaryOf (bs : BatchState) : Nat × Nat × Nat :=
  ((bs.results.filter isSuccessO).length, (bs.results.filter isSkippedO).length,
    bs.errors.length)

def outcomeUrl : Outcome → String
  | Outcome.success u _ => u
  | Outcome.skippedDup u => u
  | Outcome.skippedShort u => u

def contentB6 : String := ⟨List.replicate 50 'b'⟩

def contentC6 : String := ⟨List.replicate 2000 'c'⟩

def storyA6 : Story := mkStory ("A") ("prior content") none ("site")

def storyB6 : Story := mkStory ("B") contentB6 none ("site")

def storyC6 : Story := mkStory ("C") contentC6 none ("site")

/-- Renderer/extractor behaviour for the C6 scenario. -/
def envC6 : String → Option Story := fun u =>
  if u == ("http://site/b") then some storyB6
  else if u == ("http://site/c") then some storyC6
  else none

def linksC6 : List RawLink :=
  [⟨("http://site/a"), ("A"), ("")⟩, ⟨("http://site/b"), ("B"), ("")⟩,
    ⟨("http://site/c"), ("C"), ("")⟩]

def linkA6 : RawLink := ⟨("http://site/a"), ("A"), ("")⟩

def linkB6 : RawLink := ⟨("http://site/b"), ("B"), ("")⟩

def linkC6 : RawLink := ⟨("http://site/c"), ("C"), ("")⟩

def st06 : Storage := [(("http://site/a"), storyA6)]

/-- The JS split produces one piece more than the number of whitespace
separator runs it consumes. -/
theorem splitWsGo_length (l : List Char) :
    (∀ acc, (splitWsGo l (some acc)).length = 1 + wsRunsGo l false) ∧
      (splitWsGo l none).length = 1 + wsRunsGo l true := by
  induction l with
  | nil => simp [splitWsGo, wsRunsGo]
  | cons c r ih =>
    by_cases hc : isWsJS c
    · constructor
      · intro acc
        simp [splitWsGo, wsRunsGo, hc, ih.2]
        omega
      · simp [splitWsGo, wsRunsGo, hc, ih.2]
    · constructor
      · intro acc
        simp [splitWsGo, wsRunsGo, hc, ih.1]
      · simp [splitWsGo, wsRunsGo, hc, ih.1]

/-- When the first character is not whitespace (or the list is empty), the
whitespace-run count does not depend on the starting flag. -/
theorem wsRunsGo_flag (l : List Char) (h : headOkB l = true ∨ l = []) :
    wsRunsGo l true = wsRunsGo l false := by
  cases l with
  | nil => rfl
  | cons c r =>
    rcases h with h | h
    · simp only [headOkB, Bool.not_eq_true'] at h
      simp [wsRunsGo, h]
    · simp at h

/-- On a list whose final character is not whitespace, token counting and
whitespace-run counting are off by exactly the boundary piece. -/
theorem tokenCountGo_vs_wsRunsGo (l : List Char) (h : lastOkB l = true) :
    tokenCountGo l true = wsRunsGo l false ∧
      tokenCountGo l false = wsRunsGo l true + (if l = [] then 0 else 1) := by
  induction l with
  | nil => simp [tokenCountGo, wsRunsGo]
  | cons c r ih =>
    have hr : lastOkB r = true := by
      cases r with
      | nil => rfl
      | cons y t =>
        simp only [lastOkB, List.getLast?_cons_cons] at h ⊢
        exact h
    have ihr := ih hr
    by_cases hc : isWsJS c
    · have hrne : r ≠ [] := by
        intro hnil
        subst hnil
        simp only [lastOkB, List.getLast?_singleton] at h
        rw [hc] at h
        simp at h
      have hr1 : tokenCountGo r false = wsRunsGo r true + 1 := by
        rw [ihr.2, if_neg hrne]
      constructor
      · simp [tokenCountGo, wsRunsGo, hc, hr1]
        omega
      · simp [tokenCountGo, wsRunsGo, hc, hr1]
    · constructor
      · simp [tokenCountGo, wsRunsGo, hc, ihr.1]
      · simp [tokenCountGo, wsRunsGo, hc, ihr.1]
        omega

/-- On a trimmed nonempty string the JS split length equals the number of
whitespace-delimited tokens. -/
theorem jsWordCount_eq_tokenCount (s : String) (h1 : headOkB s.data = true)
    (h2 : lastOkB s.data = true) : jsWordCount s = tokenCount s.data := by
  have hne : s.data ≠ [] := by
    cases hd : s.data with
    | nil => rw [hd] at h1; simp [headOkB] at h1
    | cons c t => simp
  unfold jsWordCount jsSplitWs tokenCount
  rw [(splitWsGo_length s.data).1]
  rw [← wsRunsGo_flag s.data (Or.inl h1)]
  rw [(tokenCountGo_vs_wsRunsGo s.data h2).2, if_neg hne]
  omega

/-- C1, counterexample: on empty extracted content the stored `wordCount` is
1 (JS `"".split(/\s+/)` is `[""]`), not the token count 0 claimed by the
spec. -/
theorem wordCount_empty_cex :
    (mkStory ("T") ("") none ("example.com")).wordCount = 1 ∧
      tokenCount (("") : String).data = 0 ∧
      ¬ (mkStory ("T") ("") none ("example.com")).wordCount
          = tokenCount (("") : String).data := by
  refine ⟨by decide, by decide, by decide⟩

/-- C1 (amended): for every extraction whose content is nonempty and free of
leading/trailing whitespace (which holds for every nonempty output of the
content cleaner, since it trims), the stored `wordCount` equals the number
of whitespace-delimited tokens of the content; for empty content the stored
`wordCount` is 1, not 0. -/
theorem mkStory_wordCount_eq_tokens (title content : String) (author : Option String)
    (domain : String) (h1 : headOkB content.data = true) (h2 : lastOkB content.data = true) :
    (mkStory title content author domain).wordCount = tokenCount content.data ∧
      (mkStory title ("") author domain).wordCount = 1 := by
  exact ⟨jsWordCount_eq_tokenCount content h1 h2, rfl⟩

/-- C1 witness: the amended word-count law evaluated on concrete content. -/
theorem mkStory_wordCount_eq_tokens_witness :
    (mkStory ("T") ("hello brave new world") none ("example.com")).wordCount
        = tokenCount (("hello brave new world") : String).data ∧
      (mkStory ("T") ("") none ("example.com")).wordCount = 1 :=
  mkStory_wordCount_eq_tokens ("T") ("hello brave new world") none ("example.com")
    (by decide) (by decide)

/-- Removing trailing whitespace either empties the list or keeps its head. -/
theorem dropTrailingWs_shape (c : Char) (r : List Char) :
    dropTrailingWs (c :: r) = [] ∨ dropTrailingWs (c :: r) = c :: dropTrailingWs r := by
  rcases hdr : dropTrailingWs r with _ | ⟨y, t⟩
  · by_cases hc : isWsJS c
    · left
      simp [dropTrailingWs, hdr, hc]
    · right
      simp [dropTrailingWs, hdr, hc]
  · right
    simp [dropTrailingWs, hdr]

theorem dropTrailingWs_idem (l : List Char) :
    dropTrailingWs (dropTrailingWs l) = dropTrailingWs l := by
  induction l with
  | nil => rfl
  | cons c r ih =>
    rcases hdr : dropTrailingWs r with _ | ⟨y, t⟩
    · by_cases hc : isWsJS c
      · simp [dropTrailingWs, hdr, hc]
      · simp [dropTrailingWs, hdr, hc]
    · have h2 : dropTrailingWs (y :: t) = y :: t := by
        rw [hdr] at ih
        exact ih
      have h3 : dropTrailingWs (c :: r) = c :: y :: t := by
        simp [dropTrailingWs, hdr]
      rw [h3, dropTrailingWs, h2]

/-- The head surviving `dropWhile` fails the predicate. -/
theorem dropWhile_head_not (p : Char → Bool) (l : List Char) (c : Char)
    (h : (l.dropWhile p).head? = some c) : p c = false := by
  induction l with
  | nil => simp at h
  | cons x r ih =>
    by_cases hp : p x
    · rw [List.dropWhile_cons, if_pos hp] at h
      exact ih h
    · rw [List.dropWhile_cons, if_neg hp] at h
      simp only [List.head?_cons, Option.some.injEq] at h
      subst h
      simpa using hp

/-- JS `trim` is idempotent. -/
theorem jsTrimL_idem (l : List Char) : jsTrimL (jsTrimL l) = jsTrimL l := by
  unfold jsTrimL
  cases hy : dropTrailingWs (l.dropWhile isWsJS) with
  | nil => simp [dropTrailingWs]
  | cons c t =>
    have hcx : (l.dropWhile isWsJS).head? = some c := by
      cases hd : l.dropWhile isWsJS with
      | nil => rw [hd] at hy; simp [dropTrailingWs] at hy
      | cons x r =>
        rw [hd] at hy
        rcases dropTrailingWs_shape x r with h | h
        · rw [h] at hy; simp at hy
        · rw [h] at hy
          simp only [List.cons.injEq] at hy
          simp [hy.1]
    have hcw : isWsJS c = false := dropWhile_head_not _ _ _ hcx
    have hdw : (c :: t).dropWhile isWsJS = c :: t := by
      simp [List.dropWhile_cons, hcw]
    rw [hdw, ← hy, dropTrailingWs_idem]

theorem dropTrailingWs_length_le (l : List Char) :
    (dropTrailingWs l).length ≤ l.length := by
  induction l with
  | nil => simp [dropTrailingWs]
  | cons c r ih =>
    rcases dropTrailingWs_shape c r with h | h
    · simp [h]
    · rw [h]
      simpa using ih

theorem findTruncIdx_lt (p : Char → Bool) (l : List Char) (k : Nat)
    (h : findTruncIdx p l = some k) : k < l.length := by
  induction l generalizing k with
  | nil => simp [findTruncIdx] at h
  | cons c r ih =>
    by_cases hc : p c && matchableTail r
    · rw [findTruncIdx, if_pos hc] at h
      simp only [Option.some.injEq] at h
      subst h
      simp
    · rw [findTruncIdx, if_neg hc] at h
      rcases Option.map_eq_some'.mp h with ⟨k1, hk1, rfl⟩
      have := ih _ hk1
      simpa using Nat.succ_lt_succ this

/-- A truncation rule fixes the string exactly when no eligible separator
exists. -/
theorem truncRule_self_iff (p : Char → Bool) (l : List Char) :
    truncRule p l = l ↔ findTruncIdx p l = none := by
  constructor
  · intro h
    cases hfind : findTruncIdx p l with
    | none => rfl
    | some k =>
      exfalso
      have hk := findTruncIdx_lt p l k hfind
      have hlen : (truncRule p l).length < l.length := by
        unfold truncRule
        rw [hfind]
        calc (dropTrailingWs (l.take k)).length ≤ (l.take k).length :=
              dropTrailingWs_length_le _
          _ ≤ k := by simp
          _ < l.length := hk
      rw [h] at hlen
      exact lt_irrefl _ hlen
  · intro h
    unfold truncRule
    rw [h]

theorem findTruncIdx_none_mono (p q : Char → Bool) (sub : ∀ c, q c = true → p c = true)
    (l : List Char) (h : findTruncIdx p l = none) : findTruncIdx q l = none := by
  induction l with
  | nil => rfl
  | cons c r ih =>
    have hpr : findTruncIdx p r = none := by
      by_cases hp : p c && matchableTail r
      · rw [findTruncIdx, if_pos hp] at h
        simp at h
      · rw [findTruncIdx, if_neg hp] at h
        exact Option.map_eq_none'.mp h
    have hnp : ¬ (p c && matchableTail r) = true := by
      intro hp
      rw [findTruncIdx, if_pos hp] at h
      simp at h
    have hnq : ¬ (q c && matchableTail r) = true := by
      intro hq
      have hq1 : q c = true ∧ matchableTail r = true := by simpa using hq
      exact hnp (by simp [sub c hq1.1, hq1.2])
    rw [findTruncIdx, if_neg hnq, ih hpr]
    rfl

/-- Every pipe separator is also a dash-class separator. -/
theorem isPipeJS_isDashJS (c : Char) (h : isPipeJS c = true) : isDashJS c = true := by
  simp only [isPipeJS] at h
  simp [isDashJS, h]

/-- If the dash-class truncation finds nothing, the pipe truncation finds
nothing either. -/
theorem truncPipe_stable (l : List Char) (h : truncRule isDashJS l = l) :
    truncRule isPipeJS l = l := by
  rw [truncRule_self_iff] at h ⊢
  exact findTruncIdx_none_mono _ _ isPipeJS_isDashJS l h

/-- Every list is its trailing-whitespace-stripped form plus a whitespace
run. -/
theorem dropTrailingWs_decomp (l : List Char) :
    ∃ u, l = dropTrailingWs l ++ u ∧ ∀ c ∈ u, isWsJS c = true := by
  induction l with
  | nil => exact ⟨[], rfl, by simp⟩
  | cons c r ih =>
    obtain ⟨u, hu, hw⟩ := ih
    rcases hdr : dropTrailingWs r with _ | ⟨y, t⟩
    · by_cases hc : isWsJS c
      · refine ⟨c :: u, ?_, ?_⟩
        · have h0 : dropTrailingWs (c :: r) = [] := by simp [dropTrailingWs, hdr, hc]
          rw [hdr] at hu
          rw [h0, List.nil_append]
          simpa using hu
        · intro x hx
          rcases List.mem_cons.mp hx with rfl | hx
          · exact hc
          · exact hw x hx
      · have hdc : dropTrailingWs (c :: r) = c :: dropTrailingWs r := by
          simp [dropTrailingWs, hdr, hc]
        refine ⟨u, ?_, hw⟩
        rw [hdc]
        simpa using hu
    · have hdc : dropTrailingWs (c :: r) = c :: dropTrailingWs r := by
        simp [dropTrailingWs, hdr]
      refine ⟨u, ?_, hw⟩
      rw [hdc]
      simpa using hu

theorem getLast?_decomp (l : List Char) (a : Char) (h : l.getLast? = some a) :
    l = l.dropLast ++ [a] := by
  induction l with
  | nil => simp at h
  | cons c r ih =>
    cases r with
    | nil =>
      simp only [List.getLast?_singleton, Option.some.injEq] at h
      subst h
      simp
    | cons y t =>
      rw [List.getLast?_cons_cons] at h
      have hrec := ih h
      calc c :: y :: t = c :: ((y :: t).dropLast ++ [a]) := by rw [← hrec]
        _ = (c :: y :: t).dropLast ++ [a] := by simp [List.dropLast]

/-- A whitespace run followed by a nonempty newline-free block is a
matchable tail for `\s*.+$`. -/
theorem matchableTail_append (u v : List Char) (hu : ∀ c ∈ u, isWsJS c = true)
    (hv1 : v ≠ []) (hv2 : ∀ c ∈ v, isDotJS c = true) :
    matchableTail (u ++ v) = true := by
  induction u with
  | nil =>
    cases v with
    | nil => exact absurd rfl hv1
    | cons c t =>
      have hc := hv2 c (by simp)
      have ht : t.all isDotJS = true := by
        rw [List.all_eq_true]
        intro x hx
        exact hv2 x (by simp [hx])
      simp [matchableTail, hc, ht]
  | cons x u1 ih =>
    have hx := hu x (by simp)
    have ih1 := ih (fun c hc => hu c (by simp [hc]))
    simp [matchableTail, hx, ih1]

theorem findTruncIdx_append_ne (p : Char → Bool) (a b : List Char) (c : Char)
    (hc : p c = true) (hb : matchableTail b = true) :
    findTruncIdx p (a ++ c :: b) ≠ none := by
  induction a with
  | nil =>
    simp only [List.nil_append]
    rw [findTruncIdx, if_pos (by simp [hc, hb])]
    simp
  | cons x a1 ih =>
    simp only [List.cons_append]
    by_cases hx : p x && matchableTail (a1 ++ c :: b)
    · rw [findTruncIdx, if_pos hx]
      simp
    · rw [findTruncIdx, if_neg hx]
      intro h
      exact ih (Option.map_eq_none'.mp h)

theorem stripAnySuffixCI_some (ws1 : List (List Char)) (l r1 : List Char)
    (h : stripAnySuffixCI ws1 l = some r1) :
    ∃ w ∈ ws1, suffixCI w l = true ∧ r1 = l.take (l.length - w.length) := by
  induction ws1 with
  | nil => simp [stripAnySuffixCI] at h
  | cons w rest ih =>
    by_cases hw : suffixCI w l
    · rw [stripAnySuffixCI, if_pos hw] at h
      simp only [Option.some.injEq] at h
      exact ⟨w, by simp, hw, h.symm⟩
    · rw [stripAnySuffixCI, if_neg hw] at h
      obtain ⟨w1, hw1, hs, hr⟩ := ih h
      exact ⟨w1, by simp [hw1], hs, hr⟩

/-- JS `toLowerCase` fixes line terminators. -/
theorem toLower_of_isNLJS (c : Char) (h : isNLJS c = true) : Char.toLower c = c := by
  simp only [isNLJS, Bool.or_eq_true, beq_iff_eq] at h
  rcases h with ((h | h) | h) | h <;> subst h <;> decide

/-- If the dash-class truncation finds nothing in the string, the
trailing-qualifier rule cannot fire: a trailing `- free`-style qualifier
would itself be an eligible dash. -/
theorem qualRule_stable (l : List Char) (h : truncRule isDashJS l = l) :
    qualRule l = l := by
  have hfind : findTruncIdx isDashJS l = none := (truncRule_self_iff _ _).mp h
  cases hs : stripAnySuffixCI qualWords l with
  | none => simp [qualRule, hs]
  | some r1 =>
    by_cases hg : (dropTrailingWs r1).getLast? == some ('-')
    · exfalso
      obtain ⟨w, hw, hsuf, hr1⟩ := stripAnySuffixCI_some _ _ _ hs
      have hparts : decide (w.length ≤ l.length) = true ∧
          ((lowerL l).drop (l.length - w.length) == w) = true := by
        simpa [suffixCI] using hsuf
      have hle : w.length ≤ l.length := of_decide_eq_true hparts.1
      have hlow : (lowerL l).drop (l.length - w.length) = w := by
        have h2 := hparts.2
        simpa using h2
      have hlow2 : lowerL (l.drop (l.length - w.length)) = w := by
        have hmd : lowerL (l.drop (l.length - w.length))
            = (lowerL l).drop (l.length - w.length) := by
          simp only [lowerL]
          exact List.map_drop Char.toLower l _
        rw [hmd, hlow]
      have hwne : w ≠ [] := by
        have hq : ∀ w1 ∈ qualWords, w1 ≠ [] := by decide
        exact hq w hw
      have hsuflen : (l.drop (l.length - w.length)).length = w.length := by
        simp
        omega
      have hsufne : l.drop (l.length - w.length) ≠ [] := by
        intro hnil
        rw [hnil] at hsuflen
        exact hwne (List.length_eq_zero.mp hsuflen.symm)
      have hsufdot : ∀ c ∈ l.drop (l.length - w.length), isDotJS c = true := by
        intro c hcmem
        by_contra hcd
        have hnl : isNLJS c = true := by
          simp only [isDotJS, Bool.not_eq_true'] at hcd
          simpa using hcd
        have hcw : Char.toLower c ∈ w := by
          rw [← hlow2]
          exact List.mem_map_of_mem _ hcmem
        rw [toLower_of_isNLJS c hnl] at hcw
        have hq : ∀ w1 ∈ qualWords, ∀ x ∈ w1, isNLJS x = false := by decide
        have hfalse := hq w hw c hcw
        rw [hnl] at hfalse
        exact absurd hfalse (by simp)
      obtain ⟨u, hu, huw⟩ := dropTrailingWs_decomp r1
      have hglast : (dropTrailingWs r1).getLast? = some ('-') := by simpa using hg
      have hr2 : dropTrailingWs r1 = (dropTrailingWs r1).dropLast ++ [('-' : Char)] :=
        getLast?_decomp _ _ hglast
      have hlfull : l = (((dropTrailingWs r1).dropLast ++ [('-' : Char)]) ++ u)
          ++ l.drop (l.length - w.length) := by
        calc l = l.take (l.length - w.length) ++ l.drop (l.length - w.length) :=
              (List.take_append_drop _ l).symm
          _ = r1 ++ l.drop (l.length - w.length) := by rw [hr1]
          _ = (dropTrailingWs r1 ++ u) ++ l.drop (l.length - w.length) := by rw [← hu]
          _ = (((dropTrailingWs r1).dropLast ++ [('-' : Char)]) ++ u)
              ++ l.drop (l.length - w.length) := by rw [← hr2]
      have hmt : matchableTail (u ++ l.drop (l.length - w.length)) = true :=
        matchableTail_append u _ huw hsufne hsufdot
      have hne2 : findTruncIdx isDashJS
          ((dropTrailingWs r1).dropLast ++ '-' :: (u ++ l.drop (l.length - w.length)))
          ≠ none :=
        findTruncIdx_append_ne _ _ _ '-' (by decide) hmt
      apply hne2
      have hre : (((dropTrailingWs r1).dropLast ++ [('-' : Char)]) ++ u)
            ++ l.drop (l.length - w.length)
          = (dropTrailingWs r1).dropLast
            ++ '-' :: (u ++ l.drop (l.length - w.length)) := by
        simp [List.append_assoc]
      rw [← hre, ← hlfull]
      exact hfind
    · simp [qualRule, hs, hg]

/-- C2, counterexample: title cleaning is not idempotent.  On
`"story: part: x"` one pass strips only the leading `story:` role marker,
exposing a `part:` marker that a second pass strips as well. -/
theorem cleanTitle_not_idem_cex :
    cleanTitle ("story: part: x") = ("part: x") ∧
      cleanTitle (cleanTitle ("story: part: x")) = ("x") ∧
      ¬ cleanTitle (cleanTitle ("story: part: x")) = cleanTitle ("story: part: x") :=
  ⟨by decide, by decide, by decide⟩

/-- C2 (amended): title cleaning is idempotent on every input whose cleaned
form gives the second pass nothing new to remove: if `clean(t)` contains no
eligible dash/pipe separator, no leading role marker, and no trailing
parenthetical, then `clean(clean(t)) = clean(t)`.  (The trailing-qualifier
and pipe rules can never fire on such a string, and trimming is idempotent,
so these three conditions cover all five rewrite stages.)  In general a
second application can strip further, e.g. stacked role markers. -/
theorem cleanTitle_idem_of_stable (t : String)
    (hd : truncRule isDashJS (cleanTitle t).data = (cleanTitle t).data)
    (hr : roleRule (cleanTitle t).data = (cleanTitle t).data)
    (hp : parenRule (cleanTitle t).data = (cleanTitle t).data) :
    cleanTitle (cleanTitle t) = cleanTitle t := by
  have hpipe := truncPipe_stable _ hd
  have hq := qualRule_stable _ hd
  have htrim : jsTrimL (cleanTitle t).data = (cleanTitle t).data := by
    show jsTrimL (cleanTitleL t.data) = cleanTitleL t.data
    unfold cleanTitleL
    rw [jsTrimL_idem]
  show (⟨cleanTitleL (cleanTitle t).data⟩ : String) = cleanTitle t
  unfold cleanTitleL
  rw [hd, hpipe, hr, hq, hp, htrim]

/-- C2 witness: a concrete stable title on which cleaning is idempotent. -/
theorem cleanTitle_idem_witness :
    cleanTitle (cleanTitle ("Moonlight")) = cleanTitle ("Moonlight") :=
  cleanTitle_idem_of_stable ("Moonlight") (by decide) (by decide) (by decide)

theorem foldl_add_filter (kws : List String) (cn : String) (init z : Int) :
    kws.foldl (fun sc kw => if isSubstrS kw cn then sc + z else sc) init
      = init + z * ((kws.filter (fun kw => isSubstrS kw cn)).length : Int) := by
  induction kws generalizing init with
  | nil => simp
  | cons k rest ih =>
    by_cases h : isSubstrS k cn
    · simp only [List.foldl_cons, List.filter_cons, h, if_pos, if_true]
      rw [ih]
      simp
      ring
    · simp only [List.foldl_cons, List.filter_cons, h, if_false, Bool.false_eq_true, if_neg]
      rw [ih]

theorem foldl_sub_filter (kws : List String) (cn : String) (init z : Int) :
    kws.foldl (fun sc kw => if isSubstrS kw cn then sc - z else sc) init
      = init - z * ((kws.filter (fun kw => isSubstrS kw cn)).length : Int) := by
  induction kws generalizing init with
  | nil => simp
  | cons k rest ih =>
    by_cases h : isSubstrS k cn
    · simp only [List.foldl_cons, List.filter_cons, h, if_pos, if_true]
      rw [ih]
      simp
      ring
    · simp only [List.foldl_cons, List.filter_cons, h, if_false, Bool.false_eq_true, if_neg]
      rw [ih]

/-- C5: `scoreContentElement` computes exactly the additive formula of the
spec: `textLength + 50 * paragraphChildCount + 100 * (story keywords in
class) - 200 * (navigation keywords in class) - (100 if the average
non-empty-line length is below 30)`. -/
theorem scoreContentElement_eq_spec (className : String) (paraCount : Nat) (text : String) :
    scoreContentElement className paraCount text = specContentScore className paraCount text := by
  have hcond : ((if 0 < nonEmptyLineCount text.data
        then (text.length : ℚ) / (nonEmptyLineCount text.data : ℚ) else 0) < 30)
      ↔ ((text.length : ℚ) / (nonEmptyLineCount text.data : ℚ) < 30) := by
    by_cases h : 0 < nonEmptyLineCount text.data
    · simp [h]
    · have h0 : nonEmptyLineCount text.data = 0 := by omega
      rw [h0]
      norm_num
  unfold scoreContentElement specContentScore
  simp only [foldl_add_filter, foldl_sub_filter]
  by_cases h2 : (text.length : ℚ) / (nonEmptyLineCount text.data : ℚ) < 30
  · rw [if_pos (hcond.mpr h2), if_pos h2]
  · rw [if_neg (fun hx => h2 (hcond.mp hx)), if_neg h2]
    ring

theorem firstAccept_some_inv (sels : List String) (d : Doc) (x : String)
    (h : firstAccept sels d = some x) :
    ∃ sel ∈ sels, ∃ raw, queryText d sel = some raw ∧
      acceptCondB (jsTrimS raw) = true ∧ x = cleanTitle (jsTrimS raw) := by
  induction sels with
  | nil => simp [firstAccept] at h
  | cons sel rest ih =>
    cases hq : queryText d sel with
    | none =>
      rw [firstAccept, hq] at h
      obtain ⟨s1, hm, raw, hq1, hc1, hx1⟩ := ih h
      exact ⟨s1, by simp [hm], raw, hq1, hc1, hx1⟩
    | some raw =>
      rw [firstAccept, hq] at h
      have h2 : (if acceptCondB (jsTrimS raw) then some (cleanTitle (jsTrimS raw))
          else firstAccept rest d) = some x := h
      by_cases hc : acceptCondB (jsTrimS raw)
      · rw [if_pos hc] at h2
        simp only [Option.some.injEq] at h2
        exact ⟨sel, by simp, raw, hq, hc, h2.symm⟩
      · rw [if_neg hc] at h2
        obtain ⟨s1, hm, raw1, hq1, hc1, hx1⟩ := ih h2
        exact ⟨s1, by simp [hm], raw1, hq1, hc1, hx1⟩

theorem titleBranchVal_some_inv (d : Doc) (x : String) (h : titleBranchVal d = some x) :
    x = cleanTitle (jsTrimS ((queryText d ("title")).getD (""))) ∧
      3 < x.length ∧ x.length < 200 := by
  simp only [titleBranchVal] at h
  split at h
  · split at h
    · rename_i h2
      simp only [Option.some.injEq] at h
      subst h
      have h3 : 3 < (cleanTitle (jsTrimS ((queryText d ("title")).getD ("")))).length ∧
          (cleanTitle (jsTrimS ((queryText d ("title")).getD ("")))).length < 200 := by
        simpa using h2
      exact ⟨rfl, h3.1, h3.2⟩
    · simp at h
  · simp at h

/-- C7, counterexample: the returned title can be the empty string.  The
candidate `"(abcd)"` has trimmed length 6, inside the (3, 200) bound, so the
first selector accepts it, but cleaning strips the whole trailing
parenthetical and the engine returns `""` rather than the sentinel. -/
theorem extractTitle_empty_cex :
    extractTitleV2 [(("h1.story-title"), ("(abcd)"))] = ("") ∧
      (jsTrimS ("(abcd)")).length = 6 ∧
      cleanTitle ("(abcd)") = ("") :=
  ⟨by decide, by decide, by decide⟩

/-- C7 (amended): the result of `extractTitle` is the sentinel
`"Untitled Story"`, or the cleaned form of the first structural candidate
(primary selectors, then h1, h2, h3) whose trimmed text length lies
strictly between 3 and 200 — which may itself be shorter, even empty,
after cleaning — or a cleaned page title whose cleaned length is re-checked
against the bound.  When no stage accepts, the sentinel (a non-empty
string) is returned; but the returned title is not never-empty in general. -/
theorem extractTitle_amended (d : Doc) :
    (extractTitleV2 d = ("Untitled Story")
      ∨ (∃ sel ∈ primaryTitleSels ++ [("h1"), ("h2"), ("h3")], ∃ raw,
          queryText d sel = some raw ∧ acceptCondB (jsTrimS raw) = true ∧
          extractTitleV2 d = cleanTitle (jsTrimS raw))
      ∨ (extractTitleV2 d = cleanTitle (jsTrimS ((queryText d ("title")).getD ("")))
          ∧ 3 < (extractTitleV2 d).length ∧ (extractTitleV2 d).length < 200))
    ∧ (hasAcceptableTitle d = false → extractTitleV2 d = ("Untitled Story")) := by
  constructor
  · rcases h1 : firstAccept primaryTitleSels d with _ | t
    · rcases h2 : firstAccept [("h1")] d with _ | t
      · rcases h3 : firstAccept [("h2"), ("h3")] d with _ | t
        · rcases h4 : titleBranchVal d with _ | t
          · left
            simp [extractTitleV2, h1, h2, h3, h4]
          · right; right
            have he : extractTitleV2 d = t := by
              simp [extractTitleV2, h1, h2, h3, h4]
            obtain ⟨hx, hl1, hl2⟩ := titleBranchVal_some_inv d t h4
            rw [he]
            exact ⟨hx, hl1, hl2⟩
        · right; left
          have he : extractTitleV2 d = t := by
            simp [extractTitleV2, h1, h2, h3]
          obtain ⟨sel, hmem, raw, hq, hc, hx⟩ := firstAccept_some_inv _ _ _ h3
          refine ⟨sel, ?_, raw, hq, hc, by rw [he]; exact hx⟩
          have hsel : sel = ("h2") ∨ sel = ("h3") := by simpa using hmem
          rcases hsel with rfl | rfl <;> simp
      · right; left
        have he : extractTitleV2 d = t := by
          simp [extractTitleV2, h1, h2]
        obtain ⟨sel, hmem, raw, hq, hc, hx⟩ := firstAccept_some_inv _ _ _ h2
        refine ⟨sel, ?_, raw, hq, hc, by rw [he]; exact hx⟩
        have hsel : sel = ("h1") := by simpa using hmem
        subst hsel
        simp
    · right; left
      have he : extractTitleV2 d = t := by
        simp [extractTitleV2, h1]
      obtain ⟨sel, hmem, raw, hq, hc, hx⟩ := firstAccept_some_inv _ _ _ h1
      exact ⟨sel, List.mem_append_left _ hmem, raw, hq, hc, by rw [he]; exact hx⟩
  · intro hno
    have e1 : firstAccept primaryTitleSels d = none := by
      cases hval : firstAccept primaryTitleSels d
      · rfl
      · simp [hasAcceptableTitle, hval] at hno
    have e2 : firstAccept [("h1")] d = none := by
      cases hval : firstAccept [("h1")] d
      · rfl
      · simp [hasAcceptableTitle, hval] at hno
    have e3 : firstAccept [("h2"), ("h3")] d = none := by
      cases hval : firstAccept [("h2"), ("h3")] d
      · rfl
      · simp [hasAcceptableTitle, hval] at hno
    have e4 : titleBranchVal d = none := by
      cases hval : titleBranchVal d
      · rfl
      · simp [hasAcceptableTitle, hval] at hno
    simp [extractTitleV2, e1, e2, e3, e4]

/-- C7 witness: a page with no usable candidate gets the sentinel title. -/
theorem extractTitle_amended_witness :
    extractTitleV2 [(("h1"), ("xx"))] = ("Untitled Story") :=
  (extractTitle_amended [(("h1"), ("xx"))]).2 (by decide)

theorem beq_symm_str (a b : String) : (a == b) = (b == a) := by
  by_cases h : a = b
  · subst h
    rfl
  · rw [beq_eq_false_iff_ne.mpr h, beq_eq_false_iff_ne.mpr (Ne.symm h)]

/-- Everything in the folded map came from the accumulator or the input. -/
theorem foldl_mapInsert_mem (l : List RawLink) (acc : List RawLink) (e : RawLink)
    (h : e ∈ l.foldl mapInsert acc) : e ∈ acc ∨ e ∈ l := by
  induction l generalizing acc with
  | nil => exact Or.inl h
  | cons x r ih =>
    simp only [List.foldl_cons] at h
    rcases ih _ h with hacc | hr
    · unfold mapInsert at hacc
      by_cases hany : acc.any (fun y => y.url == x.url)
      · rw [if_pos hany] at hacc
        rcases List.mem_map.mp hacc with ⟨y, hy, hyx⟩
        by_cases hyu : (y.url == x.url)
        · rw [if_pos hyu] at hyx
          subst hyx
          right
          simp
        · rw [if_neg hyu] at hyx
          subst hyx
          exact Or.inl hy
      · rw [if_neg hany] at hacc
        rcases List.mem_append.mp hacc with h1 | h1
        · exact Or.inl h1
        · right
          simp only [List.mem_singleton] at h1
          simp [h1]
    · right
      simp [hr]

/-- Replacing the value of an existing key leaves the key list unchanged. -/
theorem mapInsert_urls_replace (acc : List RawLink) (x : RawLink) :
    (acc.map (fun y => if y.url == x.url then x else y)).map RawLink.url
      = acc.map RawLink.url := by
  rw [List.map_map]
  apply List.map_congr_left
  intro y _
  by_cases hyu : (y.url == x.url)
  · have : y.url = x.url := by simpa using hyu
    simp [hyu, Function.comp, this]
  · simp [hyu, Function.comp]

/-- The dedup fold preserves distinctness of the key list. -/
theorem foldl_mapInsert_nodup (l : List RawLink) (acc : List RawLink)
    (h : (acc.map RawLink.url).Nodup) :
    ((l.foldl mapInsert acc).map RawLink.url).Nodup := by
  induction l generalizing acc with
  | nil => exact h
  | cons x r ih =>
    simp only [List.foldl_cons]
    apply ih
    unfold mapInsert
    by_cases hany : acc.any (fun y => y.url == x.url)
    · rw [if_pos hany, mapInsert_urls_replace]
      exact h
    · rw [if_neg hany, List.map_append]
      have hnot : x.url ∉ acc.map RawLink.url := by
        intro hmem
        rcases List.mem_map.mp hmem with ⟨y, hy, hyu⟩
        have : acc.any (fun y => y.url == x.url) = true := by
          rw [List.any_eq_true]
          exact ⟨y, hy, by simp [hyu]⟩
        exact absurd this (by simpa using hany)
      simp [List.nodup_append, h, hnot]

/-- Each surviving entry is the last input entry carrying its key. -/
theorem foldl_mapInsert_last (l : List RawLink) :
    ∀ (acc hist : List RawLink),
      (∀ e ∈ acc, (hist.filter (fun r => r.url == e.url)).getLast? = some e) →
      ∀ e ∈ l.foldl mapInsert acc,
        ((hist ++ l).filter (fun r => r.url == e.url)).getLast? = some e := by
  induction l with
  | nil =>
    intro acc hist hinv e he
    simpa using hinv e he
  | cons x r ih =>
    intro acc hist hinv e he
    have hstep : ∀ e1 ∈ mapInsert acc x,
        ((hist ++ [x]).filter (fun r2 => r2.url == e1.url)).getLast? = some e1 := by
      intro e1 he1
      unfold mapInsert at he1
      by_cases hany : acc.any (fun y => y.url == x.url)
      · rw [if_pos hany] at he1
        rcases List.mem_map.mp he1 with ⟨y, hy, hyx⟩
        by_cases hyu : (y.url == x.url)
        · rw [if_pos hyu] at hyx
          subst hyx
          rw [List.filter_append]
          have hself : [x].filter (fun r2 => r2.url == x.url) = [x] := by simp
          rw [hself, List.getLast?_concat]
        · rw [if_neg hyu] at hyx
          subst hyx
          rw [List.filter_append]
          have hxf : [x].filter (fun r2 => r2.url == y.url) = [] := by
            have hne : ¬ (x.url == y.url) = true := by
              intro hx
              apply hyu
              have hx2 : x.url = y.url := by simpa using hx
              simp [hx2]
            simp only [List.filter_cons, List.filter_nil]
            rw [if_neg hne]
          rw [hxf, List.append_nil]
          exact hinv y hy
      · rw [if_neg hany] at he1
        rcases List.mem_append.mp he1 with h1 | h1
        · have hne : ¬ (x.url == e1.url) = true := by
            intro hx
            have hx2 : x.url = e1.url := by simpa using hx
            have hany2 : acc.any (fun y => y.url == x.url) = true := by
              rw [List.any_eq_true]
              exact ⟨e1, h1, by simp [hx2]⟩
            exact absurd hany2 (by simpa using hany)
          rw [List.filter_append]
          have hxf : [x].filter (fun r2 => r2.url == e1.url) = [] := by
            simp only [List.filter_cons, List.filter_nil]
            rw [if_neg hne]
          rw [hxf, List.append_nil]
          exact hinv e1 h1
        · simp only [List.mem_singleton] at h1
          subst h1
          rw [List.filter_append]
          have hself : [e1].filter (fun r2 => r2.url == e1.url) = [e1] := by simp
          rw [hself, List.getLast?_concat]
    have hres := ih (mapInsert acc x) (hist ++ [x]) hstep e he
    rw [← List.append_cons] at hres
    exact hres

/-- The key list of the dedup fold extends the accumulator's keys by the
first occurrences of the not-yet-seen input keys, in input order. -/
theorem foldl_mapInsert_map_url (l : List RawLink) :
    ∀ acc : List RawLink,
      (l.foldl mapInsert acc).map RawLink.url
        = acc.map RawLink.url
          ++ firstOccs ((l.map RawLink.url).filter
              (fun v => !((acc.map RawLink.url).any (fun s => s == v)))) := by
  induction l with
  | nil =>
    intro acc
    simp [firstOccs]
  | cons x r ih =>
    intro acc
    simp only [List.foldl_cons, List.map_cons, List.filter_cons]
    by_cases hany : acc.any (fun y => y.url == x.url)
    · have h2 : (acc.map RawLink.url).any (fun s => s == x.url) = true := by
        rw [List.any_eq_true] at hany ⊢
        rcases hany with ⟨y, hy, hyb⟩
        exact ⟨y.url, List.mem_map_of_mem _ hy, hyb⟩
      have hc : (!((acc.map RawLink.url).any (fun s => s == x.url))) = false := by
        simp [h2]
      rw [hc]
      simp only [Bool.false_eq_true, if_false]
      have hmi : mapInsert acc x = acc.map (fun y => if y.url == x.url then x else y) := by
        unfold mapInsert
        rw [if_pos hany]
      rw [hmi]
      rw [ih (acc.map (fun y => if y.url == x.url then x else y))]
      rw [mapInsert_urls_replace]
    · have h2 : (acc.map RawLink.url).any (fun s => s == x.url) = false := by
        rw [Bool.eq_false_iff]
        intro hx
        apply hany
        rw [List.any_eq_true] at hx ⊢
        rcases hx with ⟨s, hs, hsb⟩
        rcases List.mem_map.mp hs with ⟨y, hy, rfl⟩
        exact ⟨y, hy, hsb⟩
      have hc : (!((acc.map RawLink.url).any (fun s => s == x.url))) = true := by
        simp [h2]
      rw [hc]
      simp only [if_true]
      have hmi : mapInsert acc x = acc ++ [x] := by
        unfold mapInsert
        rw [if_neg hany]
      rw [hmi]
      rw [ih (acc ++ [x])]
      rw [List.map_append]
      simp only [List.map_singleton]
      rw [firstOccs]
      have hfe : (r.map RawLink.url).filter
            (fun v => !(((acc.map RawLink.url) ++ [x.url]).any (fun s => s == v)))
          = (r.map RawLink.url).filter
            (fun v => (!(v == x.url)) && (!((acc.map RawLink.url).any (fun s => s == v)))) := by
        apply List.filter_congr
        intro v _
        rw [List.any_append]
        simp only [List.any_cons, List.any_nil, Bool.or_false]
        rw [Bool.not_or, beq_symm_str x.url v, Bool.and_comm]
      rw [hfe, ← List.filter_filter]
      simp [List.append_assoc]

/-- C3, counterexample: for a duplicated URL the JS `Map` dedup keeps the
LAST-seen entry's fields, not the first-seen occurrence claimed by the
spec: the map's `set` overwrites the stored value while keeping the key's
position. -/
theorem dedup_keeps_last_cex :
    dedupByUrl [⟨("u"), ("a"), ("")⟩, ⟨("u"), ("b"), ("")⟩] = [⟨("u"), ("b"), ("")⟩] ∧
      (⟨("u"), ("a"), ("")⟩ : RawLink) ≠ (⟨("u"), ("b"), ("")⟩ : RawLink) :=
  ⟨by decide, by decide⟩

/-- C3 (amended): the returned link list has no two entries with equal
`url`; its URLs are the first occurrences of the filtered scan's URLs in
first-occurrence order (truncated to `maxLinks`); and for each URL the
entry kept carries the fields of the LAST link in the filtered scan with
that URL (JS `Map` value overwrite), not the first. -/
theorem discoverLinks_dedup_spec (host : String → String) (cfg : LinkCfg)
    (pageUrl : String) (raw : List RawLink) :
    ((discoverLinks host cfg pageUrl raw).map RawLink.url).Nodup ∧
      (discoverLinks host cfg pageUrl raw).map RawLink.url
        = (firstOccs ((raw.filter (linkAllowed host cfg pageUrl)).map RawLink.url)).take
            cfg.maxLinks ∧
      ∀ e ∈ discoverLinks host cfg pageUrl raw,
        ((raw.filter (linkAllowed host cfg pageUrl)).filter
            (fun r => r.url == e.url)).getLast? = some e := by
  have hurls : (dedupByUrl (raw.filter (linkAllowed host cfg pageUrl))).map RawLink.url
      = firstOccs ((raw.filter (linkAllowed host cfg pageUrl)).map RawLink.url) := by
    unfold dedupByUrl
    rw [foldl_mapInsert_map_url (raw.filter (linkAllowed host cfg pageUrl)) []]
    simp
  refine ⟨?_, ?_, ?_⟩
  · unfold discoverLinks
    rw [List.map_take]
    exact List.Nodup.sublist (List.take_sublist _ _)
      (foldl_mapInsert_nodup _ [] (by simp))
  · unfold discoverLinks
    rw [List.map_take, hurls]
  · intro e he
    have hmem : e ∈ dedupByUrl (raw.filter (linkAllowed host cfg pageUrl)) :=
      (List.take_sublist _ _).subset he
    have hlast := foldl_mapInsert_last (raw.filter (linkAllowed host cfg pageUrl))
      [] [] (by simp) e hmem
    simpa using hlast

/-- C3 witness: on a two-link scan with a duplicated URL, the kept entry is
the last filtered occurrence of that URL. -/
theorem discoverLinks_dedup_witness :
    (([⟨("http://s/story-one"), ("The First Story"), ("p")⟩,
        ⟨("http://s/story-one"), ("Story One Again"), ("q")⟩].filter
          (linkAllowed (fun _ => ("d")) ⟨[], [], false, 50, [("story")]⟩ ("http://s"))).filter
        (fun r => r.url == (⟨("http://s/story-one"), ("Story One Again"), ("q")⟩ :
            RawLink).url)).getLast?
      = some ⟨("http://s/story-one"), ("Story One Again"), ("q")⟩ :=
  (discoverLinks_dedup_spec (fun _ => ("d")) ⟨[], [], false, 50, [("story")]⟩ ("http://s")
      [⟨("http://s/story-one"), ("The First Story"), ("p")⟩,
        ⟨("http://s/story-one"), ("Story One Again"), ("q")⟩]).2.2
    ⟨("http://s/story-one"), ("Story One Again"), ("q")⟩ (by decide)

/-- C4: when `sameDomainOnly` is set, every link returned by
`scrapeLinksFromPage` has the source page's domain (for the external URL
parser `host`). -/
theorem sameDomain_invariant (host : String → String) (cfg : LinkCfg) (pageUrl : String)
    (raw : List RawLink) (e : RawLink) (hsd : cfg.sameDomainOnly = true)
    (he : e ∈ discoverLinks host cfg pageUrl raw) : host e.url = host pageUrl := by
  have h1 : e ∈ dedupByUrl (raw.filter (linkAllowed host cfg pageUrl)) :=
    (List.take_sublist _ _).subset he
  have h2 : e ∈ raw.filter (linkAllowed host cfg pageUrl) := by
    rcases foldl_mapInsert_mem _ [] e h1 with h | h
    · simp at h
    · exact h
  have h3 : linkAllowed host cfg pageUrl e = true := (List.mem_filter.mp h2).2
  have h4 : domainReject host cfg pageUrl e = false := by
    cases hval : domainReject host cfg pageUrl e
    · rfl
    · unfold linkAllowed at h3
      rw [hval] at h3
      simp at h3
  unfold domainReject at h4
  rw [hsd] at h4
  simpa using h4

/-- C4 witness: the invariant evaluated with a lower-casing domain parser
on a one-link scan. -/
theorem sameDomain_invariant_witness :
    lowerS ("HTTP://S") = lowerS ("http://s") :=
  sameDomain_invariant lowerS ⟨[], [], true, 50, []⟩ ("http://s")
    [⟨("HTTP://S"), ("An Amazing Story Chapter"), ("p")⟩]
    ⟨("HTTP://S"), ("An Amazing Story Chapter"), ("p")⟩ rfl (by decide)

/-- C9: with a non-empty `filterPatterns` list the predicate ignores the
configured story keywords entirely, and, for a link that survives the
domain, exclusion, navigation-text and short/generic-text checks, inclusion
holds exactly when some pattern matches the URL or the combined text — the
heuristic acceptance step is never consulted. -/
theorem filterPatterns_allowlist (host : String → String) (cfg : LinkCfg)
    (pageUrl : String) (link : RawLink) (sk1 sk2 : List String)
    (hfp : cfg.filterPatterns ≠ []) :
    (linkAllowed host { cfg with storyKeywords := sk1 } pageUrl link
        = linkAllowed host { cfg with storyKeywords := sk2 } pageUrl link)
    ∧ (domainReject host cfg pageUrl link = false →
        exclReject cfg link = false →
        navReject link = false →
        shortReject link = false →
        (linkAllowed host cfg pageUrl link = true ↔ patternHit cfg link = true)) := by
  have hne : cfg.filterPatterns.isEmpty = false := by
    cases hval : cfg.filterPatterns with
    | nil => exact absurd hval hfp
    | cons a b => simp
  constructor
  · simp [linkAllowed, domainReject, exclReject, navReject, shortReject, patternHit, hne]
  · intro hd he2 hn hs
    simp [linkAllowed, hd, he2, hn, hs, hne]

/-- C9 witness: a link matching the single configured pattern is accepted. -/
theorem filterPatterns_allowlist_witness :
    linkAllowed (fun _ => ("d")) ⟨[("tale")], [], false, 50, []⟩ ("http://s")
      ⟨("http://s/tale-one"), ("A Wonder Tale"), ("p")⟩ = true :=
  ((filterPatterns_allowlist (fun _ => ("d")) ⟨[("tale")], [], false, 50, []⟩ ("http://s")
      ⟨("http://s/tale-one"), ("A Wonder Tale"), ("p")⟩ [] [("x")]
      (by decide)).2 (by decide) (by decide) (by decide) (by decide)).mpr (by decide)

/-- C6: over the three-link list (urlA already stored, urlB yielding 50
characters of content against `minContentLength = 500`, urlC yielding 2000
characters) the batch loop records exactly a duplicate skip, a too-short
skip and one success, in input order, with summary `{successful: 1,
skipped: 2, failed: 0}`, one outcome per link and no retries. -/
theorem crawlPipeline_scenario :
    (runBatch envC6 500 st06 linksC6).results
        = [Outcome.skippedDup ("http://site/a"), Outcome.skippedShort ("http://site/b"),
            Outcome.success ("http://site/c") storyC6] ∧
      summaryOf (runBatch envC6 500 st06 linksC6) = (1, 2, 0) ∧
      (runBatch envC6 500 st06 linksC6).errors = [] ∧
      (runBatch envC6 500 st06 linksC6).results.map outcomeUrl = linksC6.map RawLink.url ∧
      contentB6.length = 50 ∧ contentC6.length = 2000 := by
  have hlenC : storyC6.content.length = 2000 := by
    show (List.replicate 2000 'c').length = 2000
    exact List.length_replicate 2000 'c'
  have hA : processLink envC6 500 ⟨st06, [], []⟩ linkA6
      = ⟨st06, [Outcome.skippedDup ("http://site/a")], []⟩ := by decide
  have hB : processLink envC6 500 ⟨st06, [Outcome.skippedDup ("http://site/a")], []⟩ linkB6
      = ⟨st06, [Outcome.skippedDup ("http://site/a"),
          Outcome.skippedShort ("http://site/b")], []⟩ := by decide
  have hlC : lookupStory st06 ("http://site/c") = none := by decide
  have hsC : scrapeV2 envC6 st06 ("http://site/c")
      = some (storyC6, insertOrReplace st06 ("http://site/c") storyC6) := rfl
  have hC : processLink envC6 500
        ⟨st06, [Outcome.skippedDup ("http://site/a"),
          Outcome.skippedShort ("http://site/b")], []⟩ linkC6
      = ⟨insertOrReplace st06 ("http://site/c") storyC6,
          [Outcome.skippedDup ("http://site/a"), Outcome.skippedShort ("http://site/b"),
            Outcome.success ("http://site/c") storyC6], []⟩ := by
    have hcond : ¬ storyC6.content.length < 500 := by
      rw [hlenC]
      omega
    simp [processLink, linkC6, hlC, hsC, hcond]
  have hrun : runBatch envC6 500 st06 linksC6
      = ⟨insertOrReplace st06 ("http://site/c") storyC6,
          [Outcome.skippedDup ("http://site/a"), Outcome.skippedShort ("http://site/b"),
            Outcome.success ("http://site/c") storyC6], []⟩ := by
    have hl6 : linksC6 = [linkA6, linkB6, linkC6] := by decide
    rw [runBatch, hl6, List.foldl_cons, List.foldl_cons, List.foldl_cons, List.foldl_nil]
    rw [hA, hB, hC]
  refine ⟨?_, ?_, ?_, ?_, ?_, ?_⟩
  · rw [hrun]
  · rw [hrun]
    decide
  · rw [hrun]
  · rw [hrun]
    decide
  · show (List.replicate 50 'b').length = 50
    exact List.length_replicate 50 'b'
  · show (List.replicate 2000 'c').length = 2000
    exact List.length_replicate 2000 'c'

/-- C8: when the freshly extracted content is shorter than
`minContentLength`, the v2 loop records the too-short skip and the
`DELETE` undoes the speculative `INSERT OR REPLACE` made by `scrape`, so
storage is exactly what it was before the link was processed (and in
particular holds no record for that URL). -/
theorem tooShort_rollback (env : String → Option Story) (minLen : Nat) (bs : BatchState)
    (link : RawLink) (story : Story) (hdup : lookupStory bs.storage link.url = none)
    (hext : env link.url = some story) (hshort : story.content.length < minLen) :
    (processLink env minLen bs link).storage = bs.storage ∧
      (processLink env minLen bs link).results
        = bs.results ++ [Outcome.skippedShort link.url] ∧
      lookupStory (processLink env minLen bs link).storage link.url = none := by
  have hs : scrapeV2 env bs.storage link.url
      = some (story, insertOrReplace bs.storage link.url story) := by
    unfold scrapeV2
    rw [hext]
    rfl
  have hfind : bs.storage.find? (fun r2 => r2.1 == link.url) = none := by
    unfold lookupStory at hdup
    exact Option.map_eq_none'.mp hdup
  have h2 : bs.storage.filter (fun r => !(r.1 == link.url)) = bs.storage := by
    apply List.filter_eq_self.mpr
    intro r hr
    have hne := List.find?_eq_none.mp hfind r hr
    simpa using hne
  have hdel : deleteByUrl (insertOrReplace bs.storage link.url story) link.url
      = bs.storage := by
    unfold deleteByUrl insertOrReplace
    rw [List.filter_append]
    have h1 : ([((link.url, story))].filter (fun r => !(r.1 == link.url))) = [] := by simp
    rw [h1, List.append_nil, h2, h2]
  have hstep : processLink env minLen bs link
      = { bs with storage := deleteByUrl (insertOrReplace bs.storage link.url story) link.url,
                  results := bs.results ++ [Outcome.skippedShort link.url] } := by
    unfold processLink
    rw [hdup, hs]
    simp [hshort]
  refine ⟨?_, ?_, ?_⟩
  · rw [hstep]
    exact hdel
  · rw [hstep]
  · rw [hstep]
    show lookupStory (deleteByUrl (insertOrReplace bs.storage link.url story) link.url)
        link.url = none
    rw [hdel]
    exact hdup

/-- C8 witness: a too-short extraction against an empty storage leaves the
storage empty. -/
theorem tooShort_rollback_witness :
    (processLink (fun _ => some (mkStory ("T") ("short") none ("d"))) 500
        ⟨([] : Storage), [], []⟩ ⟨("u"), ("t"), ("")⟩).storage = ([] : Storage) :=
  (tooShort_rollback (fun _ => some (mkStory ("T") ("short") none ("d"))) 500
      ⟨([] : Storage), [], []⟩ ⟨("u"), ("t"), ("")⟩ (mkStory ("T") ("short") none ("d"))
      (by decide) rfl (by decide)).1

theorem find?_append_pair (l1 l2 : List (String × Story)) (p : (String × Story) → Bool) :
    (l1 ++ l2).find? p
      = match l1.find? p with
        | some x => some x
        | none => l2.find? p := by
  induction l1 with
  | nil => simp
  | cons a t ih =>
    by_cases ha : p a
    · rw [List.cons_append, List.find?_cons_of_pos _ ha, List.find?_cons_of_pos _ ha]
    · rw [List.cons_append, List.find?_cons_of_neg _ ha, List.find?_cons_of_neg _ ha]
      exact ih

theorem find?_filter_ne (st : Storage) (u v : String) (hne : ¬ v = u) :
    (st.filter (fun r => !(r.1 == u))).find? (fun r => r.1 == v)
      = st.find? (fun r => r.1 == v) := by
  induction st with
  | nil => rfl
  | cons a t ih =>
    by_cases hau : a.1 = u
    · have h1 : (!(a.1 == u)) = false := by simp [hau]
      have h2 : ¬ (a.1 == v) = true := by
        rw [hau]
        intro hb
        have huv : u = v := by simpa using hb
        exact hne huv.symm
      simp only [List.filter_cons, h1, Bool.false_eq_true, if_false]
      rw [ih, @List.find?_cons_of_neg _ (fun r => r.1 == v) a t h2]
    · have h1 : (!(a.1 == u)) = true := by simp [hau]
      simp only [List.filter_cons, h1, if_true]
      by_cases hav : a.1 = v
      · have h2 : (a.1 == v) = true := by simp [hav]
        rw [@List.find?_cons_of_pos _ (fun r => r.1 == v) a
            (List.filter (fun r => !(r.1 == u)) t) h2,
          @List.find?_cons_of_pos _ (fun r => r.1 == v) a t h2]
      · have h2 : ¬ (a.1 == v) = true := by simp [hav]
        rw [@List.find?_cons_of_neg _ (fun r => r.1 == v) a
            (List.filter (fun r => !(r.1 == u)) t) h2,
          @List.find?_cons_of_neg _ (fun r => r.1 == v) a t h2]
        exact ih

/-- C10: the v2 single-page `scrape` on a URL never skips or errors on an
existing record: it returns the new extraction and persists it by keyed
replacement (`INSERT OR REPLACE` on the UNIQUE `url` column), leaving other
URLs untouched; and any sequence of such scrapes preserves
at-most-one-record-per-URL.  (Duplicate skipping exists only in the batch
loop's pre-check.) -/
theorem scrape_replace_invariant (env : String → Option Story) (st : Storage)
    (u : String) (story : Story) (henv : env u = some story) :
    scrapeV2 env st u = some (story, insertOrReplace st u story) ∧
      lookupStory (insertOrReplace st u story) u = some story ∧
      (∀ v, ¬ v = u → lookupStory (insertOrReplace st u story) v = lookupStory st v) ∧
      ∀ ops : List (String × Story), (st.map (fun r => r.1)).Nodup →
        ((ops.foldl (fun s2 op => insertOrReplace s2 op.1 op.2) st).map
            (fun r => r.1)).Nodup := by
  have hins : ∀ (st2 : Storage) (u2 : String) (s2 : Story),
      (st2.map (fun r => r.1)).Nodup →
        ((insertOrReplace st2 u2 s2).map (fun r => r.1)).Nodup := by
    intro st2 u2 s2 hnd
    unfold insertOrReplace
    rw [List.map_append, List.map_singleton, List.nodup_append]
    refine ⟨?_, by simp, ?_⟩
    · exact List.Nodup.sublist (List.Sublist.map _ (List.filter_sublist _)) hnd
    · intro a ha hb
      simp only [List.mem_singleton] at hb
      subst hb
      rcases List.mem_map.mp ha with ⟨r, hr, hru⟩
      have hflt := (List.mem_filter.mp hr).2
      rw [hru] at hflt
      simp at hflt
  refine ⟨?_, ?_, ?_, ?_⟩
  · unfold scrapeV2
    rw [henv]
    rfl
  · unfold lookupStory insertOrReplace
    rw [find?_append_pair]
    have h1 : (st.filter (fun r => !(r.1 == u))).find? (fun r => r.1 == u) = none := by
      rw [List.find?_eq_none]
      intro a ha
      have h2 := (List.mem_filter.mp ha).2
      simpa using h2
    rw [h1]
    simp
  · intro v hv
    unfold lookupStory insertOrReplace
    rw [find?_append_pair, find?_filter_ne st u v hv]
    have h3 : ([((u, story))].find? (fun r => r.1 == v)) = none := by
      apply List.find?_eq_none.mpr
      intro a ha
      simp only [List.mem_singleton] at ha
      subst ha
      intro hb
      have huv : u = v := by simpa using hb
      exact hv huv.symm
    rw [h3]
    cases hf : st.find? (fun r => r.1 == v) <;> simp
  · intro ops
    induction ops generalizing st with
    | nil =>
      intro hnd
      simpa using hnd
    | cons op rest ih =>
      intro hnd
      simp only [List.foldl_cons]
      exact ih _ (hins st op.1 op.2 hnd)

/-- C10 witness: scraping a URL that already has a record replaces the
record in place. -/
theorem scrape_replace_invariant_witness :
    lookupStory (insertOrReplace [(("u"), mkStory ("Old") ("x") none ("d"))] ("u")
        (mkStory ("New") ("y") none ("d"))) ("u")
      = some (mkStory ("New") ("y") none ("d")) :=
  (scrape_replace_invariant (fun _ => some (mkStory ("New") ("y") none ("d")))
      [(("u"), mkStory ("Old") ("x") none ("d"))] ("u")
      (mkStory ("New") ("y") none ("d")) rfl).2.1
